import Mathlib

/-!
Verification of `skills/todolist-md-clawdbot/scripts/apply_filtered_suggestions.py`.

The script's text-processing core is embedded shallowly: Python strings become
`List Char`, Python floats become exact rationals (`ℚ`), the nondeterministic
parts of a machine marker line (uuid, timestamps) are taken as parameters, and
the fallible `dict.get('original')` is an `Option`.  `difflib.SequenceMatcher`
(with `isjunk = None`) is embedded following CPython's implementation:
`b2j` with autojunk pruning, the `j2len` scan of `find_longest_match`, the
non-junk extension loops (the junk extension loops never run since
`bjunk = ∅`), and the recursive decomposition of `get_matching_blocks`,
whose total matched size feeds `ratio`.
-/

namespace TodoApply

open scoped List

/-- Characters treated as whitespace by the Python regex `\s` and by
`str.strip` (ASCII range; the script's own text is ASCII). -/
def pySpace (c : Char) : Bool :=
  c == ' ' || c == '\t' || c == '\n' || c == '\r' || c == Char.ofNat 11 || c == Char.ofNat 12

/-- The character class `[a-z0-9 ]` of the script's first regex. -/
def predC (c : Char) : Bool :=
  ('a' ≤ c && c ≤ 'z') || ('0' ≤ c && c ≤ '9') || c == ' '

/-- One character of `re.sub(r'[^a-z0-9 ]',' ', s)`: keep a lowercase letter,
a digit, or a space, and turn anything else into a space. -/
def classify (c : Char) : Char :=
  if predC c then c else ' '

/-- `re.sub(r'\s+',' ', s)`: each maximal run of whitespace becomes one space. -/
def collapse : List Char → List Char
  | [] => []
  | [c] => if pySpace c then [' '] else [c]
  | c :: d :: cs =>
    if pySpace c then
      if pySpace d then collapse (d :: cs) else ' ' :: collapse (d :: cs)
    else c :: collapse (d :: cs)

/-- Python `str.strip()`: drop leading and trailing whitespace. -/
def pyStrip (s : List Char) : List Char :=
  ((s.dropWhile pySpace).reverse.dropWhile pySpace).reverse

/-- `normalize` from the script:
`re.sub(r'\s+',' ', re.sub(r'[^a-z0-9 ]',' ', (s or '').lower())).strip()`.
The argument is optional because the script passes `it.get('original')`,
which may be `None`. -/
def normalize (s : Option (List Char)) : List Char :=
  pyStrip (collapse (((s.getD []).map Char.toLower).map classify))

/-- `ACTION_VERBS` from the script. -/
def ACTION_VERBS : List (List Char) :=
  ["create".data, "implement".data, "open".data, "contact".data, "draft".data,
   "request".data, "schedule".data, "setup".data, "configure".data, "test".data,
   "verify".data, "follow".data]

/-- `is_actionable` from the script: the normalized title starts with
`v + ' '` for some verb `v`, or `' ' + v + ' '` occurs in `' ' + t + ' '`. -/
def is_actionable (title : List Char) : Bool :=
  let t := normalize (some title)
  ACTION_VERBS.any (fun v =>
    (v ++ [' ']).isPrefixOf t || decide ((' ' :: (v ++ [' '])) <:+: (' ' :: (t ++ [' ']))))

/-! ## difflib.SequenceMatcher(None, a, b) -/

/-- All indices `j` with `b[j] = c`: difflib's `b2j` before autojunk pruning. -/
def b2jAll (b : List Char) (c : Char) : List ℕ :=
  (List.range b.length).filter (fun j => b.get? j == some c)

/-- difflib autojunk: with `isjunk = None`, an element of `b` is "popular"
when `len(b) >= 200` and it occurs more than `len(b) // 100 + 1` times. -/
def isPopular (b : List Char) (c : Char) : Bool :=
  decide (200 ≤ b.length) && decide (b.length / 100 + 1 < (b2jAll b c).length)

/-- difflib's pruned `b2j` mapping. -/
def b2j (b : List Char) (c : Char) : List ℕ :=
  if isPopular b c then [] else b2jAll b c

/-- The running best block of `find_longest_match`: `besti`, `bestj`, `bestsize`. -/
structure MatchBlock where
  besti : ℕ
  bestj : ℕ
  size : ℕ
deriving DecidableEq

/-- One iteration (one value of `i`) of the `j2len` loop in
`find_longest_match`.  `j2len` is the previous row's dictionary (total with
default `0`); `js` is `b2j[a[i]]` already restricted to `[blo, bhi)`. -/
def flmRow (j2len : ℕ → ℕ) (i : ℕ) (js : List ℕ) (st : MatchBlock) : (ℕ → ℕ) × MatchBlock :=
  js.foldl
    (fun acc j =>
      let k := (if j = 0 then 0 else j2len (j - 1)) + 1
      let nj : ℕ → ℕ := fun x => if x = j then k else acc.1 x
      let st' := if acc.2.size < k then ⟨i + 1 - k, j + 1 - k, k⟩ else acc.2
      (nj, st'))
    ((fun _ => 0), st)

/-- The main double loop of `find_longest_match` over `a[alo:ahi]`. -/
def flmScan (a b : List Char) (alo ahi blo bhi : ℕ) : MatchBlock :=
  ((List.range' alo (ahi - alo)).foldl
    (fun (acc : (ℕ → ℕ) × MatchBlock) i =>
      flmRow acc.1 i
        ((b2j b (a.getD i ' ')).filter (fun j => decide (blo ≤ j) && decide (j < bhi)))
        acc.2)
    ((fun _ => 0), ⟨alo, blo, 0⟩)).2

/-- `a[i] == b[j]`, `false` out of range (all real calls are in range). -/
def chEq (a b : List Char) (i j : ℕ) : Bool :=
  match a.get? i, b.get? j with
  | some x, some y => x == y
  | _, _ => false

/-- The leftward non-junk extension loop of `find_longest_match` (fuelled;
the guard `besti > alo` makes `besti` its own sufficient fuel). -/
def extendLeft (a b : List Char) (alo blo : ℕ) : ℕ → MatchBlock → MatchBlock
  | 0, st => st
  | fuel + 1, st =>
    if alo < st.besti && blo < st.bestj && chEq a b (st.besti - 1) (st.bestj - 1) then
      extendLeft a b alo blo fuel ⟨st.besti - 1, st.bestj - 1, st.size + 1⟩
    else st

/-- The rightward non-junk extension loop of `find_longest_match` (fuelled;
`ahi` is sufficient fuel since `besti + size < ahi` is required to step). -/
def extendRight (a b : List Char) (ahi bhi : ℕ) : ℕ → MatchBlock → MatchBlock
  | 0, st => st
  | fuel + 1, st =>
    if st.besti + st.size < ahi && st.bestj + st.size < bhi &&
        chEq a b (st.besti + st.size) (st.bestj + st.size) then
      extendRight a b ahi bhi fuel ⟨st.besti, st.bestj, st.size + 1⟩
    else st

/-- difflib `find_longest_match` with `isjunk = None`: the `j2len` scan plus
the two non-junk extension loops.  The junk extension loops are omitted
because `bjunk = ∅` makes their guards false. -/
def find_longest_match (a b : List Char) (alo ahi blo bhi : ℕ) : MatchBlock :=
  let st := flmScan a b alo ahi blo bhi
  let st := extendLeft a b alo blo st.besti st
  extendRight a b ahi bhi ahi st

/-- Total size of difflib's `get_matching_blocks`: the recursive
longest-match decomposition, fuelled (the combined window size strictly
shrinks, so `len a + len b + 1` fuel is always enough). -/
def matchedSizes (a b : List Char) : ℕ → ℕ → ℕ → ℕ → ℕ → ℕ
  | 0, _, _, _, _ => 0
  | fuel + 1, alo, ahi, blo, bhi =>
    let m := find_longest_match a b alo ahi blo bhi
    if m.size = 0 then 0
    else m.size + matchedSizes a b fuel alo m.besti blo m.bestj +
         matchedSizes a b fuel (m.besti + m.size) ahi (m.bestj + m.size) bhi

/-- `sum(triple[-1] for triple in get_matching_blocks())`. -/
def matchesTotal (a b : List Char) : ℕ :=
  matchedSizes a b (a.length + b.length + 1) 0 a.length 0 b.length

/-- difflib `ratio()` = `2.0 * M / T`, as an exact rational (the script's
floats are modelled exactly; `mkRat` is that exact quotient);
`_calculate_ratio` returns `1.0` when `T = 0`. -/
def ratio (a b : List Char) : ℚ :=
  if a.length + b.length = 0 then 1
  else mkRat (2 * (matchesTotal a b : ℤ)) (a.length + b.length)

/-! ## The suggestion loop of `main` -/

/-- One entry of `fs['suggestions']`: `it.get('original')` (possibly `None`)
and `it.get('suggested_text','')`. -/
structure Suggestion where
  original : Option (List Char)
  suggested_text : List Char

/-- The `decision` field of a record. -/
inductive Decision
  | insert
  | skip_similar
  | skip_not_actionable
deriving DecidableEq

/-- `re.sub(r'^\- \[ \]\s*','', suggested)`: strip a leading `- [ ]` with
any following whitespace; leave the string unchanged when there is no match. -/
def stripCheckbox (s : List Char) : List Char :=
  if "- [ ]".data.isPrefixOf s then (s.drop 5).dropWhile pySpace else s

/-- `.split('\n')[0]`. -/
def firstLine (s : List Char) : List Char := s.takeWhile (fun c => c ≠ '\n')

/-- `title = re.sub(r'^\- \[ \]\s*','', suggested).split('\n')[0]`. -/
def extractTitle (s : List Char) : List Char := firstLine (stripCheckbox s)

/-- One decision record, as appended to `records`. -/
structure DecisionRecord where
  original : Option (List Char)
  title : List Char
  similarity : ℚ
  actionable : Bool
  decision : Decision
deriving DecidableEq

/-- The per-suggestion computation of `main` up to and including the
decision (`sim`, `actionable`, the `if`/`elif` chain). -/
def evalSuggestion (threshold : ℚ) (it : Suggestion) : DecisionRecord :=
  let title := extractTitle it.suggested_text
  let sim := ratio (normalize it.original) (normalize (some title))
  let actionable := is_actionable title
  let decision :=
    if threshold ≤ sim then Decision.skip_similar
    else if actionable = false then Decision.skip_not_actionable
    else Decision.insert
  ⟨it.original, title, sim, actionable, decision⟩

/-- The score of one document line against a suggestion's `original`. -/
def lineScore (orig : Option (List Char)) (ln : List Char) : ℚ :=
  ratio (normalize orig) (normalize (some ln))

/-- The `for idx,ln in enumerate(lines)` best-match loop, over an already
enumerated list; `best_idx` starts as `None` and `best_score` as `0`, and
only a strictly greater score replaces the current best. -/
def bestMatchAux (orig : Option (List Char)) :
    List (ℕ × List Char) → Option ℕ × ℚ → Option ℕ × ℚ
  | [], acc => acc
  | (idx, ln) :: rest, acc =>
    bestMatchAux orig rest
      (if acc.2 < lineScore orig ln then (some idx, lineScore orig ln) else acc)

/-- The best-match search of `main` over the pre-insertion `lines`. -/
def bestMatch (lines : List (List Char)) (orig : Option (List Char)) : Option ℕ × ℚ :=
  bestMatchAux orig lines.enum (none, 0)

/-- `human_note = f"  > <!-- bot: note --> {title}"` (braces denote Python
interpolation of the title). -/
def humanNote (title : List Char) : List Char := "  > <!-- bot: note --> ".data ++ title

/-- `new_lines[max(0,idx-2):min(len(new_lines),idx+3)]`. -/
def windowOf (nl : List (List Char)) (idx : ℕ) : List (List Char) :=
  (nl.drop (idx - 2)).take (min nl.length (idx + 3) - (idx - 2))

/-- `'\n'.join(...)`. -/
def joinNL : List (List Char) → List Char
  | [] => []
  | [l] => l
  | l :: ls => l ++ '\n' :: joinNL ls

/-- The mutable state of the suggestion loop in `main`. -/
structure LoopState where
  new_lines : List (List Char)
  offset : ℕ
  inserted : ℕ
  records : List DecisionRecord

/-- One iteration of the suggestion loop of `main`.  `mk` is this
iteration's `machine_comment` line: its uuid and timestamp come from the
environment, so the whole line is a parameter of the model. -/
def processSuggestion (threshold : ℚ) (lines : List (List Char)) (mk : List Char)
    (st : LoopState) (it : Suggestion) : LoopState :=
  let r := evalSuggestion threshold it
  let st1 : LoopState := { st with records := st.records ++ [r] }
  if r.decision ≠ Decision.insert then st1
  else
    match bestMatch lines it.original with
    | (none, _) => st1
    | (some best_idx, best_score) =>
      if best_score < mkRat 1 5 then st1
      else
        let hn := humanNote r.title
        let idx := best_idx + 1 + st1.offset
        let w := joinNL (windowOf st1.new_lines idx)
        if decide (pyStrip hn <:+: w) || decide (mk <:+: w) then st1
        else
          { st1 with
            new_lines := (st1.new_lines.insertIdx idx hn).insertIdx (idx + 1) mk
            offset := st1.offset + 2
            inserted := st1.inserted + 1 }

/-- The suggestion loop, with `k` counting iterations so that the `k`-th
suggestion gets marker line `markers k`. -/
def runSuggestionsAux (threshold : ℚ) (lines : List (List Char)) (markers : ℕ → List Char) :
    ℕ → List Suggestion → LoopState → LoopState
  | _, [], st => st
  | k, it :: rest, st =>
    runSuggestionsAux threshold lines markers (k + 1) rest
      (processSuggestion threshold lines (markers k) st it)

/-- `new_lines = list(lines); offset = 0; inserted = 0; records = []`. -/
def initState (lines : List (List Char)) : LoopState := ⟨lines, 0, 0, []⟩

/-- The whole suggestion loop of `main`. -/
def runSuggestions (threshold : ℚ) (lines : List (List Char)) (items : List Suggestion)
    (markers : ℕ → List Char) : LoopState :=
  runSuggestionsAux threshold lines markers 0 items (initState lines)

/-- `'<!-- bot: last_review'`, the startswith test of the header update. -/
def lastReviewTag : List Char := "<!-- bot: last_review".data

/-- The header update at the end of `main`: replace a first line starting
with the tag, otherwise insert the new header at index 0.  `last_line` is a
parameter because the real line embeds a wall-clock timestamp. -/
def updateLastReview (last_line : List Char) : List (List Char) → List (List Char)
  | [] => [last_line]
  | f :: rest =>
    if lastReviewTag.isPrefixOf f then last_line :: rest else last_line :: f :: rest

/-- Python `str.splitlines()` on the downloaded content, modelling the
terminators `\n`, `\r\n` and `\r` (the content of a markdown to-do file);
`acc` is the reversed current line. -/
def splitlinesGo (acc : List Char) : List Char → List (List Char)
  | [] => if acc.isEmpty then [] else [acc.reverse]
  | [c] =>
    if c = '\r' ∨ c = '\n' then [acc.reverse]
    else [(c :: acc).reverse]
  | c :: d :: rest =>
    if c = '\r' then
      if d = '\n' then acc.reverse :: splitlinesGo [] rest
      else acc.reverse :: splitlinesGo [] (d :: rest)
    else if c = '\n' then acc.reverse :: splitlinesGo [] (d :: rest)
    else splitlinesGo (c :: acc) (d :: rest)

/-- `lines = content.splitlines()`. -/
def pySplitlines (content : List Char) : List (List Char) := splitlinesGo [] content

/-- The final line array: header update applied after the whole loop. -/
def finalLines (threshold : ℚ) (content : List Char) (items : List Suggestion)
    (markers : ℕ → List Char) (last_line : List Char) : List (List Char) :=
  updateLastReview last_line
    (runSuggestions threshold (pySplitlines content) items markers).new_lines

/-- `new_content = '\n'.join(new_lines) + ('\n' if content.endswith('\n') else '')`. -/
def newContent (threshold : ℚ) (content : List Char) (items : List Suggestion)
    (markers : ℕ → List Char) (last_line : List Char) : List Char :=
  joinNL (finalLines threshold content items markers last_line) ++
    (if content.getLast? = some '\n' then ['\n'] else [])

/-! ## Helper lemmas -/

/-- Every branch of the suggestion loop body appends exactly this
suggestion's decision record, and nothing else, to `records`. -/
theorem processSuggestion_records (threshold : ℚ) (lines : List (List Char)) (mk : List Char)
    (st : LoopState) (it : Suggestion) :
    (processSuggestion threshold lines mk st it).records =
      st.records ++ [evalSuggestion threshold it] := by
  unfold processSuggestion
  dsimp only
  split
  · rfl
  · split
    · rfl
    · split
      · rfl
      · split
        · rfl
        · rfl

/-- The `records` accumulator of the loop, relative to any start state. -/
theorem runSuggestionsAux_records (threshold : ℚ) (lines : List (List Char))
    (markers : ℕ → List Char) (items : List Suggestion) :
    ∀ (k : ℕ) (st : LoopState),
      (runSuggestionsAux threshold lines markers k items st).records =
        st.records ++ items.map (evalSuggestion threshold) := by
  induction items with
  | nil => intro k st; simp [runSuggestionsAux]
  | cons it rest ih =>
    intro k st
    rw [runSuggestionsAux, ih, processSuggestion_records]
    simp

/-- The best-match loop with an explicit position counter instead of a
pre-enumerated list (same computation as `bestMatchAux` on `enumFrom`). -/
def scanBest (orig : Option (List Char)) : ℕ → List (List Char) → Option ℕ × ℚ → Option ℕ × ℚ
  | _, [], acc => acc
  | k, ln :: rest, acc =>
    scanBest orig (k + 1) rest
      (if acc.2 < lineScore orig ln then (some k, lineScore orig ln) else acc)

theorem bestMatchAux_enumFrom (orig : Option (List Char)) (ls : List (List Char)) :
    ∀ (k : ℕ) (acc : Option ℕ × ℚ),
      bestMatchAux orig (ls.enumFrom k) acc = scanBest orig k ls acc := by
  induction ls with
  | nil => intro k acc; rfl
  | cons ln rest ih => intro k acc; simp [List.enumFrom, bestMatchAux, scanBest, ih]

/-- Invariants of the best-match scan: the result dominates the start
accumulator and every scanned score, and it is either the untouched
accumulator or the score of a scanned line whose index it reports, with
every strictly earlier line scoring strictly less (first occurrence wins
ties, since only a strictly greater score replaces the best). -/
theorem scanBest_spec (orig : Option (List Char)) (ls : List (List Char)) :
    ∀ (k : ℕ) (acc : Option ℕ × ℚ),
      acc.2 ≤ (scanBest orig k ls acc).2 ∧
      (∀ j, j < ls.length → lineScore orig (ls.getD j []) ≤ (scanBest orig k ls acc).2) ∧
      (scanBest orig k ls acc = acc ∨
        ∃ j, j < ls.length ∧ (scanBest orig k ls acc).1 = some (k + j) ∧
          (scanBest orig k ls acc).2 = lineScore orig (ls.getD j []) ∧
          acc.2 < (scanBest orig k ls acc).2 ∧
          ∀ j', j' < j → lineScore orig (ls.getD j' []) < (scanBest orig k ls acc).2) := by
  induction ls with
  | nil =>
    intro k acc
    exact ⟨le_refl _, fun j hj => absurd hj (by simp), Or.inl rfl⟩
  | cons ln rest ih =>
    intro k acc
    by_cases h : acc.2 < lineScore orig ln
    · have hs : scanBest orig k (ln :: rest) acc
          = scanBest orig (k + 1) rest (some k, lineScore orig ln) := by
        simp [scanBest, h]
      obtain ⟨h1, h2, h3⟩ := ih (k + 1) (some k, lineScore orig ln)
      rw [hs]
      refine ⟨le_trans (le_of_lt h) h1, ?_, ?_⟩
      · intro j hj
        match j with
        | 0 => simpa using h1
        | j + 1 => exact h2 j (by simpa using hj)
      · rcases h3 with heq | ⟨j, hj, hj1, hj2, hj3, hj4⟩
        · refine Or.inr ⟨0, by simp, ?_, ?_, ?_, fun j' hj' => absurd hj' (by omega)⟩
          · rw [heq]; simp
          · rw [heq]; simp
          · rw [heq]; exact h
        · refine Or.inr ⟨j + 1, by simpa using hj, ?_, ?_, ?_, ?_⟩
          · rw [hj1]; congr 1; omega
          · simpa using hj2
          · exact lt_trans h hj3
          · intro j' hj'
            match j' with
            | 0 => simpa using hj3
            | j' + 1 => simpa using hj4 j' (by omega)
    · have hs : scanBest orig k (ln :: rest) acc = scanBest orig (k + 1) rest acc := by
        simp [scanBest, h]
      obtain ⟨h1, h2, h3⟩ := ih (k + 1) acc
      rw [hs]
      refine ⟨h1, ?_, ?_⟩
      · intro j hj
        match j with
        | 0 => simpa using le_trans (not_lt.mp h) h1
        | j + 1 => exact h2 j (by simpa using hj)
      · rcases h3 with heq | ⟨j, hj, hj1, hj2, hj3, hj4⟩
        · exact Or.inl heq
        · refine Or.inr ⟨j + 1, by simpa using hj, ?_, ?_, hj3, ?_⟩
          · rw [hj1]; congr 1; omega
          · simpa using hj2
          · intro j' hj'
            match j' with
            | 0 => simpa using lt_of_le_of_lt (not_lt.mp h) hj3
            | j' + 1 => simpa using hj4 j' (by omega)

theorem get?_insertIdx_self {α : Type} : ∀ (l : List α) (n : ℕ) (a : α),
    n ≤ l.length → (l.insertIdx n a).get? n = some a
  | _, 0, _, _ => by simp [List.insertIdx]
  | [], n + 1, a, h => by simp at h
  | x :: l, n + 1, a, h => by
    rw [List.insertIdx_succ_cons]
    simpa using get?_insertIdx_self l n a (by simpa using h)

theorem get?_insertIdx_of_lt {α : Type} : ∀ (l : List α) (n k : ℕ) (a : α),
    k < n → (l.insertIdx n a).get? k = l.get? k
  | _, 0, k, _, h => absurd h (Nat.not_lt_zero k)
  | [], n + 1, k, a, _ => by simp [List.insertIdx_succ_nil]
  | x :: l, n + 1, 0, a, _ => by rw [List.insertIdx_succ_cons]; rfl
  | x :: l, n + 1, k + 1, a, h => by
    rw [List.insertIdx_succ_cons]
    simpa using get?_insertIdx_of_lt l n k a (by omega)

/-- A reported best-match index is an index of the scanned document. -/
theorem bestMatch_some_lt (lines : List (List Char)) (orig : Option (List Char)) (i : ℕ) (s : ℚ)
    (h : bestMatch lines orig = (some i, s)) : i < lines.length := by
  have heq : bestMatch lines orig = scanBest orig 0 lines (none, 0) :=
    bestMatchAux_enumFrom orig lines 0 (none, 0)
  obtain ⟨-, -, h3⟩ := scanBest_spec orig lines 0 (none, (0 : ℚ))
  rcases h3 with hacc | ⟨j, hj, hj1, -, -, -⟩
  · rw [heq, hacc] at h
    simp at h
  · rw [heq] at h
    rw [h] at hj1
    simp only at hj1
    injection hj1 with hji
    omega

/-- The accepted-insertion branch of the loop body, in closed form. -/
theorem processSuggestion_insert_case (threshold : ℚ) (lines : List (List Char)) (mk : List Char)
    (st : LoopState) (it : Suggestion) (i : ℕ) (s : ℚ)
    (hdec : (evalSuggestion threshold it).decision = Decision.insert)
    (hbm : bestMatch lines it.original = (some i, s))
    (hs : ¬ s < mkRat 1 5)
    (hw : ¬ (pyStrip (humanNote (evalSuggestion threshold it).title) <:+:
              joinNL (windowOf st.new_lines (i + 1 + st.offset))) ∧
          ¬ (mk <:+: joinNL (windowOf st.new_lines (i + 1 + st.offset)))) :
    processSuggestion threshold lines mk st it =
      { st with
        records := st.records ++ [evalSuggestion threshold it]
        new_lines := ((st.new_lines.insertIdx (i + 1 + st.offset)
            (humanNote (evalSuggestion threshold it).title)).insertIdx
            (i + 1 + st.offset + 1) mk)
        offset := st.offset + 2
        inserted := st.inserted + 1 } := by
  unfold processSuggestion
  dsimp only
  rw [if_neg (by simp [hdec]), hbm]
  dsimp only
  rw [if_neg hs, if_neg (by simp [hw.1, hw.2])]

/-- `v` occurs in `t` as a separate word: the text before it is empty or
ends in a space, and the text after it is empty or starts with a space. -/
def IsWordOf (v t : List Char) : Prop :=
  ∃ pre post, t = pre ++ v ++ post ∧
    (pre = [] ∨ ∃ p, pre = p ++ [' ']) ∧
    (post = [] ∨ ∃ q, post = ' ' :: q)

theorem concat_eq_concat {α : Type} {xs ys : List α} {a b : α}
    (h : xs ++ [a] = ys ++ [b]) : xs = ys ∧ a = b := by
  have h2 := List.append_inj' h rfl
  exact ⟨h2.1, by simpa using h2.2⟩

/-- The space-padded infix test of `is_actionable` is exactly word
occurrence. -/
theorem pad_infix_iff_word (v t : List Char) :
    ((' ' :: (v ++ [' '])) <:+: (' ' :: (t ++ [' ']))) ↔ IsWordOf v t := by
  constructor
  · rintro ⟨p, q, hpq⟩
    match p with
    | [] =>
      simp only [List.nil_append, List.cons_append] at hpq
      injection hpq with _ hpq
      rcases (List.eq_nil_or_concat q) with hq | ⟨q', b, hq⟩
      · subst hq
        simp only [List.append_nil] at hpq
        obtain ⟨hv, -⟩ := concat_eq_concat hpq
        exact ⟨[], [], by simp [hv], Or.inl rfl, Or.inl rfl⟩
      · subst hq
        rw [show (v ++ [' ']) ++ q'.concat b = (v ++ ' ' :: q') ++ [b] by simp] at hpq
        obtain ⟨hv, -⟩ := concat_eq_concat hpq
        exact ⟨[], ' ' :: q', by simp [← hv], Or.inl rfl, Or.inr ⟨q', rfl⟩⟩
    | a :: p' =>
      simp only [List.cons_append] at hpq
      injection hpq with ha hpq
      rcases (List.eq_nil_or_concat q) with hq | ⟨q', b, hq⟩
      · subst hq
        rw [show p' ++ (' ' :: (v ++ [' '])) ++ [] = (p' ++ ' ' :: v) ++ [' '] by simp] at hpq
        obtain ⟨hv, -⟩ := concat_eq_concat hpq
        refine ⟨p' ++ [' '], [], ?_, Or.inr ⟨p', rfl⟩, Or.inl rfl⟩
        simp [← hv]
      · subst hq
        rw [show p' ++ (' ' :: (v ++ [' '])) ++ q'.concat b
            = (p' ++ ' ' :: v ++ ' ' :: q') ++ [b] by simp] at hpq
        obtain ⟨hv, -⟩ := concat_eq_concat hpq
        refine ⟨p' ++ [' '], ' ' :: q', ?_, Or.inr ⟨p', rfl⟩, Or.inr ⟨q', rfl⟩⟩
        simp [← hv]
  · rintro ⟨pre, post, ht, hpre, hpost⟩
    subst ht
    rcases hpre with hpre | ⟨p, hp⟩
    · subst hpre
      rcases hpost with hpost | ⟨q, hq⟩
      · subst hpost
        exact ⟨[], [], by simp⟩
      · subst hq
        exact ⟨[], q ++ [' '], by simp⟩
    · subst hp
      rcases hpost with hpost | ⟨q, hq⟩
      · subst hpost
        exact ⟨' ' :: p, [], by simp⟩
      · subst hq
        exact ⟨' ' :: p, q ++ [' '], by simp⟩

/-! ### Facts about `normalize` -/

theorem classify_predC (c : Char) : predC (classify c) = true := by
  rw [classify]
  split
  · assumption
  · decide

theorem classify_fixed {c : Char} (h : predC c = true) : classify c = c := by
  rw [classify, if_pos h]

theorem predC_space {c : Char} (h1 : predC c = true) (h2 : pySpace c = true) : c = ' ' := by
  simp only [pySpace, Bool.or_eq_true, beq_iff_eq] at h2
  rcases h2 with ((((h | h) | h) | h) | h) | h
  · exact h
  all_goals (subst h; exact absurd h1 (by decide))

theorem toLower_fixed {c : Char} (h : predC c = true) : c.toLower = c := by
  have hn : ¬ (c.toNat ≥ 65 ∧ c.toNat ≤ 90) := by
    have h' := h
    simp only [predC, Bool.or_eq_true, Bool.and_eq_true, decide_eq_true_eq, beq_iff_eq] at h'
    rcases h' with (⟨h1, -⟩ | ⟨-, h2⟩) | h3
    · have h97 : (97 : ℕ) ≤ c.toNat :=
        BitVec.le_def.mp (UInt32.le_def.mp (Char.le_def.mp h1))
      omega
    · have h57 : c.toNat ≤ (57 : ℕ) :=
        BitVec.le_def.mp (UInt32.le_def.mp (Char.le_def.mp h2))
      omega
    · subst h3; decide
  rw [Char.toLower, if_neg hn]

/-- No two adjacent whitespace characters. -/
def noTwoSpaces (l : List Char) : Prop :=
  l.Chain' (fun a b => ¬(pySpace a = true ∧ pySpace b = true))

/-- `collapse` of a nonempty list is nonempty and preserves whether the
head is whitespace. -/
theorem collapse_cons_head : ∀ (c : Char) (cs : List Char),
    ∃ h t', collapse (c :: cs) = h :: t' ∧ pySpace h = pySpace c := by
  intro c cs
  induction cs generalizing c with
  | nil =>
    by_cases h : pySpace c = true
    · exact ⟨' ', [], by simp [collapse, h], by rw [h]; decide⟩
    · refine ⟨c, [], by simp [collapse, h], rfl⟩
  | cons d cs ih =>
    by_cases hc : pySpace c = true
    · by_cases hd : pySpace d = true
      · obtain ⟨h, t', hh, hp⟩ := ih d
        exact ⟨h, t', by rw [collapse, if_pos hc, if_pos hd, hh], by rw [hp, hd, hc]⟩
      · exact ⟨' ', collapse (d :: cs), by rw [collapse, if_pos hc, if_neg hd],
          by rw [hc]; decide⟩
    · exact ⟨c, collapse (d :: cs), by rw [collapse, if_neg hc], rfl⟩

theorem collapse_noTwoSpaces : ∀ l : List Char, noTwoSpaces (collapse l) := by
  intro l
  induction l with
  | nil => exact List.chain'_nil
  | cons c cs ih =>
    match cs with
    | [] =>
      rw [collapse]
      split <;> exact List.chain'_singleton _
    | d :: cs' =>
      by_cases hc : pySpace c = true
      · by_cases hd : pySpace d = true
        · rw [collapse, if_pos hc, if_pos hd]; exact ih
        · rw [collapse, if_pos hc, if_neg hd]
          rw [noTwoSpaces, List.chain'_cons']
          refine ⟨?_, ih⟩
          intro y hy
          obtain ⟨h, t', hh, hp⟩ := collapse_cons_head d cs'
          rw [hh] at hy
          simp only [List.head?_cons, Option.mem_def, Option.some.injEq] at hy
          subst hy
          simp [hp, hd]
      · rw [collapse, if_neg hc]
        rw [noTwoSpaces, List.chain'_cons']
        refine ⟨fun y _ => by simp [hc], ih⟩

theorem collapse_mem : ∀ (l : List Char) (c : Char), c ∈ collapse l → c ∈ l ∨ c = ' ' := by
  intro l
  induction l with
  | nil => intro c hc; cases hc
  | cons a cs ih =>
    match cs with
    | [] =>
      intro c hc
      rw [collapse] at hc
      split at hc
      · simp at hc; exact Or.inr hc
      · simp at hc; exact Or.inl (by simp [hc])
    | d :: cs' =>
      intro c hc
      by_cases ha : pySpace a = true
      · by_cases hd : pySpace d = true
        · rw [collapse, if_pos ha, if_pos hd] at hc
          rcases ih c hc with h | h
          · exact Or.inl (List.mem_cons_of_mem a h)
          · exact Or.inr h
        · rw [collapse, if_pos ha, if_neg hd] at hc
          rcases List.mem_cons.mp hc with h | h
          · exact Or.inr h
          · rcases ih c h with h2 | h2
            · exact Or.inl (List.mem_cons_of_mem a h2)
            · exact Or.inr h2
      · rw [collapse, if_neg ha] at hc
        rcases List.mem_cons.mp hc with h | h
        · exact Or.inl (by simp [h])
        · rcases ih c h with h2 | h2
          · exact Or.inl (List.mem_cons_of_mem a h2)
          · exact Or.inr h2

theorem collapse_fixed : ∀ l : List Char, noTwoSpaces l →
    (∀ c ∈ l, pySpace c = true → c = ' ') → collapse l = l := by
  intro l
  induction l with
  | nil => intro _ _; rfl
  | cons a cs ih =>
    match cs with
    | [] =>
      intro _ hsp
      rw [collapse]
      split
      · next h => rw [hsp a (by simp) h]
      · rfl
    | d :: cs' =>
      intro hch hsp
      have hch' : noTwoSpaces (d :: cs') := (List.chain'_cons'.mp hch).2
      have hsp' : ∀ c ∈ d :: cs', pySpace c = true → c = ' ' :=
        fun c hc => hsp c (List.mem_cons_of_mem a hc)
      by_cases ha : pySpace a = true
      · have hd : pySpace d = false := by
          have := (List.chain'_cons'.mp hch).1 d (by simp)
          rcases hb : pySpace d
          · rfl
          · exact absurd ⟨ha, hb⟩ this
        rw [collapse, if_pos ha, if_neg (by simp [hd])]
        rw [ih hch' hsp', hsp a (by simp) ha]
      · rw [collapse, if_neg ha, ih hch' hsp']

theorem head?_dropWhile_not (p : Char → Bool) : ∀ (l : List Char) (c : Char),
    (l.dropWhile p).head? = some c → p c = false := by
  intro l
  induction l with
  | nil => intro c h; cases h
  | cons a l ih =>
    intro c h
    by_cases ha : p a = true
    · rw [List.dropWhile_cons_of_pos ha] at h
      exact ih c h
    · rw [List.dropWhile_cons_of_neg ha] at h
      injection h with h
      subst h
      simpa using ha

theorem dropWhile_eq_self (p : Char → Bool) (l : List Char)
    (h : ∀ c, l.head? = some c → p c = false) : l.dropWhile p = l := by
  match l with
  | [] => rfl
  | a :: l =>
    have := h a rfl
    rw [List.dropWhile_cons_of_neg (by simp [this])]

theorem pyStrip_isPrefix (s : List Char) : pyStrip s <+: s.dropWhile pySpace := by
  rw [pyStrip]
  generalize s.dropWhile pySpace = u
  conv_rhs => rw [← List.reverse_reverse u]
  exact List.reverse_prefix.mpr (List.dropWhile_suffix pySpace)

theorem pyStrip_inside (s : List Char) : pyStrip s <:+: s := by
  obtain ⟨r, hr⟩ := pyStrip_isPrefix s
  obtain ⟨q, hq⟩ := List.dropWhile_suffix (l := s) pySpace
  exact ⟨q, r, by rw [List.append_assoc, hr, hq]⟩

theorem pyStrip_head (s : List Char) (c : Char) (h : (pyStrip s).head? = some c) :
    pySpace c = false := by
  obtain ⟨r, hr⟩ := pyStrip_isPrefix s
  apply head?_dropWhile_not pySpace s c
  rw [← hr]
  rw [List.head?_append]
  rw [h]
  rfl

theorem pyStrip_getLast (s : List Char) (c : Char) (h : (pyStrip s).getLast? = some c) :
    pySpace c = false := by
  apply head?_dropWhile_not pySpace (s.dropWhile pySpace).reverse c
  rw [← List.head?_reverse] at h
  rw [pyStrip, List.reverse_reverse] at h
  exact h

theorem pyStrip_eq_self (v : List Char)
    (hh : ∀ c, v.head? = some c → pySpace c = false)
    (hl : ∀ c, v.getLast? = some c → pySpace c = false) : pyStrip v = v := by
  rw [pyStrip]
  rw [dropWhile_eq_self pySpace v hh]
  rw [dropWhile_eq_self pySpace v.reverse
    (fun c hc => hl c (by rw [← List.head?_reverse]; exact hc))]
  exact List.reverse_reverse v

theorem pyStrip_idem (s : List Char) : pyStrip (pyStrip s) = pyStrip s :=
  pyStrip_eq_self (pyStrip s) (pyStrip_head s) (pyStrip_getLast s)

theorem normalize_chars (s : Option (List Char)) :
    ∀ c ∈ normalize s, predC c = true := by
  intro c hc
  have hinf := pyStrip_inside (collapse (((s.getD []).map Char.toLower).map classify))
  have hc2 : c ∈ collapse (((s.getD []).map Char.toLower).map classify) :=
    hinf.sublist.mem hc
  rcases collapse_mem _ c hc2 with h | h
  · obtain ⟨d, -, hd⟩ := List.mem_map.mp h
    rw [← hd]
    exact classify_predC d
  · subst h; decide

theorem normalize_pyStrip (s : Option (List Char)) :
    pyStrip (normalize s) = normalize s := by
  rw [normalize]
  exact pyStrip_idem _

theorem normalize_noTwoSpaces (s : Option (List Char)) : noTwoSpaces (normalize s) :=
  List.Chain'.infix (collapse_noTwoSpaces _) (pyStrip_inside _)

/-! ### Frame facts: the loop only inserts lines, never at index 0 -/

theorem sublist_insertIdx {α : Type} : ∀ (l : List α) (n : ℕ) (a : α), l <+ l.insertIdx n a
  | l, 0, a => by rw [List.insertIdx_zero]; exact List.sublist_cons_self a l
  | [], n + 1, a => by simp [List.insertIdx_succ_nil]
  | x :: l, n + 1, a => by
    rw [List.insertIdx_succ_cons]
    exact List.Sublist.cons₂ x (sublist_insertIdx l n a)

theorem insertIdx_head_tail {α : Type} : ∀ (l : List α) (n : ℕ) (a : α),
    (l.insertIdx (n + 1) a).head? = l.head? ∧ l.tail <+ (l.insertIdx (n + 1) a).tail
  | [], n, a => by simp [List.insertIdx_succ_nil]
  | x :: l, n, a => by
    rw [List.insertIdx_succ_cons]
    exact ⟨rfl, sublist_insertIdx l n a⟩

theorem insertIdx_head_tail_of_pos {α : Type} (l : List α) (n : ℕ) (hn : 1 ≤ n) (a : α) :
    (l.insertIdx n a).head? = l.head? ∧ l.tail <+ (l.insertIdx n a).tail := by
  obtain ⟨m, rfl⟩ : ∃ m, n = m + 1 := ⟨n - 1, by omega⟩
  exact insertIdx_head_tail l m a

/-- One loop iteration never touches the head line and only inserts into
the tail (insertion points are always at index `best + 1 + offset ≥ 1`). -/
theorem processSuggestion_head_tail (threshold : ℚ) (lines : List (List Char)) (mk : List Char)
    (st : LoopState) (it : Suggestion) :
    (processSuggestion threshold lines mk st it).new_lines.head? = st.new_lines.head? ∧
    st.new_lines.tail <+ (processSuggestion threshold lines mk st it).new_lines.tail := by
  unfold processSuggestion
  dsimp only
  split
  · exact ⟨rfl, List.Sublist.refl _⟩
  · rcases hbm : bestMatch lines it.original with ⟨bi, bs⟩
    rcases bi with _ | i
    · exact ⟨rfl, List.Sublist.refl _⟩
    · dsimp only
      split
      · exact ⟨rfl, List.Sublist.refl _⟩
      · split
        · exact ⟨rfl, List.Sublist.refl _⟩
        · dsimp only
          obtain ⟨hh1, ht1⟩ := insertIdx_head_tail_of_pos st.new_lines (i + 1 + st.offset)
            (by omega) (humanNote (evalSuggestion threshold it).title)
          obtain ⟨hh2, ht2⟩ := insertIdx_head_tail_of_pos
            (st.new_lines.insertIdx (i + 1 + st.offset)
              (humanNote (evalSuggestion threshold it).title))
            (i + 1 + st.offset + 1) (by omega) mk
          exact ⟨hh2.trans hh1, ht1.trans ht2⟩

theorem runSuggestionsAux_head_tail (threshold : ℚ) (lines : List (List Char))
    (markers : ℕ → List Char) (items : List Suggestion) :
    ∀ (k : ℕ) (st : LoopState),
      (runSuggestionsAux threshold lines markers k items st).new_lines.head? =
        st.new_lines.head? ∧
      st.new_lines.tail <+
        (runSuggestionsAux threshold lines markers k items st).new_lines.tail := by
  induction items with
  | nil => intro k st; exact ⟨rfl, List.Sublist.refl _⟩
  | cons it rest ih =>
    intro k st
    rw [runSuggestionsAux]
    obtain ⟨hh1, ht1⟩ :=
      processSuggestion_head_tail threshold lines (markers k) st it
    obtain ⟨hh2, ht2⟩ := ih (k + 1) (processSuggestion threshold lines (markers k) st it)
    exact ⟨hh2.trans hh1, ht1.trans ht2⟩

/-! ### Facts about the last document line (for the trailing-newline claim) -/

theorem getLast?_cons_of_ne_nil {α : Type} (x : α) (l : List α) (h : l ≠ []) :
    (x :: l).getLast? = l.getLast? := by
  match l with
  | [] => exact absurd rfl h
  | y :: l' => exact List.getLast?_cons_cons

theorem getLast?_insertIdx {α : Type} : ∀ (l : List α) (n : ℕ) (a : α), n ≤ l.length →
    (l.insertIdx n a).getLast? = if n = l.length then some a else l.getLast?
  | [], 0, a, _ => by simp
  | x :: l', 0, a, _ => by
    rw [List.insertIdx_zero, getLast?_cons_of_ne_nil a (x :: l') (by simp)]
    simp
  | [], n + 1, a, h => by simp at h
  | x :: l', n + 1, a, h => by
    rw [List.insertIdx_succ_cons]
    have hlen : n ≤ l'.length := by simpa using h
    have hne : l'.insertIdx n a ≠ [] := by
      have hl := List.length_insertIdx n l' hlen (a := a)
      intro hnil
      rw [hnil] at hl
      simp at hl
    rw [getLast?_cons_of_ne_nil x _ hne, getLast?_insertIdx l' n a hlen]
    by_cases heq : n = l'.length
    · rw [if_pos heq, if_pos (by simp [heq])]
    · have hlt : n < l'.length := lt_of_le_of_ne hlen heq
      have hl'ne : l' ≠ [] := by
        intro h0
        rw [h0] at hlt
        simp at hlt
      rw [if_neg heq, if_neg (by simpa using heq),
        getLast?_cons_of_ne_nil x l' hl'ne]

/-- Each loop iteration either leaves the line array and offset untouched,
or performs the double insertion at `i + 1 + offset` for a matched index
`i` of the document and bumps the offset by 2. -/
theorem processSuggestion_shape (threshold : ℚ) (lines : List (List Char)) (mk : List Char)
    (st : LoopState) (it : Suggestion) :
    ((processSuggestion threshold lines mk st it).new_lines = st.new_lines ∧
     (processSuggestion threshold lines mk st it).offset = st.offset) ∨
    (∃ i, i < lines.length ∧
      (processSuggestion threshold lines mk st it).new_lines =
        ((st.new_lines.insertIdx (i + 1 + st.offset)
          (humanNote (evalSuggestion threshold it).title)).insertIdx
          (i + 1 + st.offset + 1) mk) ∧
      (processSuggestion threshold lines mk st it).offset = st.offset + 2) := by
  unfold processSuggestion
  dsimp only
  split
  · exact Or.inl ⟨rfl, rfl⟩
  · rcases hbm : bestMatch lines it.original with ⟨bi, bs⟩
    rcases bi with _ | i
    · exact Or.inl ⟨rfl, rfl⟩
    · dsimp only
      split
      · exact Or.inl ⟨rfl, rfl⟩
      · split
        · exact Or.inl ⟨rfl, rfl⟩
        · exact Or.inr ⟨i, bestMatch_some_lt lines it.original i bs hbm, rfl, rfl⟩

/-- Loop invariant for the trailing-newline analysis: the line array has
grown by exactly the offset, and its last line (when there is one) is
nonempty and newline-free. -/
def GoodLast (lines : List (List Char)) (st : LoopState) : Prop :=
  st.new_lines.length = lines.length + st.offset ∧
  (∀ L, st.new_lines.getLast? = some L → L ≠ [] ∧ '\n' ∉ L)

theorem processSuggestion_goodLast (threshold : ℚ) (lines : List (List Char))
    (mk : List Char) (st : LoopState) (it : Suggestion)
    (hmk : mk ≠ [] ∧ '\n' ∉ mk) (h : GoodLast lines st) :
    GoodLast lines (processSuggestion threshold lines mk st it) := by
  rcases processSuggestion_shape threshold lines mk st it with ⟨h1, h2⟩ | ⟨i, hi, h1, h2⟩
  · exact ⟨by rw [h1, h2]; exact h.1, by rw [h1]; exact h.2⟩
  · have hidx : i + 1 + st.offset ≤ st.new_lines.length := by
      rw [h.1]; omega
    have hlen1 : (st.new_lines.insertIdx (i + 1 + st.offset)
        (humanNote (evalSuggestion threshold it).title)).length =
        st.new_lines.length + 1 :=
      List.length_insertIdx _ _ hidx
    constructor
    · rw [h1, h2, List.length_insertIdx _ _ (by rw [hlen1]; omega), hlen1, h.1]
      omega
    · intro L hL
      rw [h1] at hL
      rw [getLast?_insertIdx _ _ _ (by rw [hlen1]; omega)] at hL
      by_cases hc : i + 1 + st.offset + 1 =
          (st.new_lines.insertIdx (i + 1 + st.offset)
            (humanNote (evalSuggestion threshold it).title)).length
      · rw [if_pos hc] at hL
        injection hL with hL
        rw [← hL]
        exact hmk
      · rw [if_neg hc] at hL
        rw [getLast?_insertIdx _ _ _ hidx] at hL
        by_cases hc2 : i + 1 + st.offset = st.new_lines.length
        · exact absurd (by rw [hlen1]; omega) hc
        · rw [if_neg hc2] at hL
          exact h.2 L hL

theorem runSuggestionsAux_goodLast (threshold : ℚ) (lines : List (List Char))
    (markers : ℕ → List Char) (items : List Suggestion)
    (hmk : ∀ k, markers k ≠ [] ∧ '\n' ∉ markers k) :
    ∀ (k : ℕ) (st : LoopState), GoodLast lines st →
      GoodLast lines (runSuggestionsAux threshold lines markers k items st) := by
  induction items with
  | nil => intro k st h; exact h
  | cons it rest ih =>
    intro k st h
    rw [runSuggestionsAux]
    exact ih (k + 1) _ (processSuggestion_goodLast threshold lines (markers k) st it
      (hmk k) h)

theorem splitlinesGo_ne_nil : ∀ (l acc : List Char), '\r' ∉ l → (l ≠ [] ∨ acc ≠ []) →
    splitlinesGo acc l ≠ [] := by
  intro l
  induction l with
  | nil =>
    intro acc _ hne
    rcases hne with h | h
    · exact absurd rfl h
    · rw [splitlinesGo, if_neg (by simpa using h)]
      simp
  | cons c cs ih =>
    intro acc hcr _
    have hc : c ≠ '\r' := fun h => hcr (by simp [h])
    match cs with
    | [] =>
      rw [splitlinesGo]
      split <;> simp
    | d :: rest =>
      rw [splitlinesGo, if_neg hc]
      split
      · simp
      · exact ih (c :: acc) (fun h => hcr (List.mem_cons_of_mem c h)) (Or.inl (by simp))

theorem splitlinesGo_no_newline : ∀ (l acc : List Char), '\r' ∉ l → '\n' ∉ acc →
    ∀ x ∈ splitlinesGo acc l, '\n' ∉ x := by
  intro l
  induction l with
  | nil =>
    intro acc _ hacc x hx
    rw [splitlinesGo] at hx
    split at hx
    · cases hx
    · simp only [List.mem_singleton] at hx
      subst hx
      simpa using hacc
  | cons c cs ih =>
    intro acc hcr hacc x hx
    have hc : c ≠ '\r' := fun h => hcr (by simp [h])
    have hcr' : '\r' ∉ cs := fun h => hcr (List.mem_cons_of_mem c h)
    match cs with
    | [] =>
      rw [splitlinesGo] at hx
      split at hx
      · simp only [List.mem_singleton] at hx
        subst hx
        simpa using hacc
      · next hcn =>
        simp only [List.mem_singleton] at hx
        subst hx
        simp only [List.mem_reverse, List.mem_cons]
        rintro (h | h)
        · exact hcn (Or.inr h.symm)
        · exact hacc h
    | d :: rest =>
      rw [splitlinesGo, if_neg hc] at hx
      split at hx
      · rcases List.mem_cons.mp hx with h | h
        · subst h; simpa using hacc
        · exact ih [] hcr' (by simp) x h
      · next hcn =>
        refine ih (c :: acc) hcr' ?_ x hx
        simp only [List.mem_cons]
        rintro (h | h)
        · exact hcn h.symm
        · exact hacc h

theorem splitlinesGo_getLast_ne_nil : ∀ (l acc : List Char), '\r' ∉ l →
    l.getLast? ≠ some '\n' → (l = [] → acc ≠ []) →
    ∀ L, (splitlinesGo acc l).getLast? = some L → L ≠ [] := by
  intro l
  induction l with
  | nil =>
    intro acc _ _ hne L hL
    have hacc : acc ≠ [] := hne rfl
    rw [splitlinesGo, if_neg (by simpa using hacc)] at hL
    simp only [List.getLast?_cons, List.getLast?_nil] at hL
    injection hL with hL
    rw [← hL]
    simpa using hacc
  | cons c cs ih =>
    intro acc hcr hlast _ L hL
    have hc : c ≠ '\r' := fun h => hcr (by simp [h])
    have hcr' : '\r' ∉ cs := fun h => hcr (List.mem_cons_of_mem c h)
    match cs with
    | [] =>
      have hcn : c ≠ '\n' := by
        intro h
        exact hlast (by simp [h])
      rw [splitlinesGo, if_neg (by rintro (h | h) <;> [exact hc h; exact hcn h])] at hL
      simp only [List.getLast?_cons, List.getLast?_nil] at hL
      injection hL with hL
      rw [← hL]
      simp
    | d :: rest =>
      have hlast' : (d :: rest).getLast? ≠ some '\n' := by
        rw [← List.getLast?_cons_cons (a := c)]
        exact hlast
      rw [splitlinesGo, if_neg hc] at hL
      split at hL
      · have hR : splitlinesGo [] (d :: rest) ≠ [] :=
          splitlinesGo_ne_nil (d :: rest) [] hcr' (Or.inl (by simp))
        rw [getLast?_cons_of_ne_nil _ _ hR] at hL
        exact ih [] hcr' hlast' (by simp) L hL
      · exact ih (c :: acc) hcr' hlast' (by simp) L hL

/-- When every line of a nonempty list is accounted for — the last one
nonempty and newline-free — the join is nonempty and does not end in a
newline. -/
theorem joinNL_getLast : ∀ (ls : List (List Char)), ls ≠ [] →
    (∀ L, ls.getLast? = some L → L ≠ [] ∧ '\n' ∉ L) →
    joinNL ls ≠ [] ∧ (joinNL ls).getLast? ≠ some '\n' := by
  intro ls
  induction ls with
  | nil => intro h; exact absurd rfl h
  | cons l ls ih =>
    intro _ hgood
    match ls with
    | [] =>
      obtain ⟨hne, hnl⟩ := hgood l rfl
      refine ⟨hne, ?_⟩
      intro hc
      have hc' : l.getLast? = some '\n' := hc
      exact hnl (List.mem_of_mem_getLast? (Option.mem_def.mpr hc'))
    | l2 :: ls' =>
      have hgood' : ∀ L, (l2 :: ls').getLast? = some L → L ≠ [] ∧ '\n' ∉ L := by
        intro L hL
        exact hgood L (by rw [List.getLast?_cons_cons]; exact hL)
      obtain ⟨hne, hlast⟩ := ih (by simp) hgood'
      rw [show joinNL (l :: l2 :: ls') = l ++ '\n' :: joinNL (l2 :: ls') from rfl]
      constructor
      · simp
      · rw [List.getLast?_append_of_ne_nil _ (by simp)]
        rw [getLast?_cons_of_ne_nil _ _ hne]
        exact hlast

theorem updateLastReview_ne_nil (ll : List Char) (nl : List (List Char)) :
    updateLastReview ll nl ≠ [] := by
  match nl with
  | [] => simp [updateLastReview]
  | f :: rest =>
    rw [updateLastReview]
    split <;> simp

theorem updateLastReview_getLast (ll : List Char) (nl : List (List Char)) :
    ∀ L, (updateLastReview ll nl).getLast? = some L →
      nl.getLast? = some L ∨ L = ll := by
  match nl with
  | [] =>
    intro L hL
    rw [updateLastReview] at hL
    simp only [List.getLast?_cons, List.getLast?_nil] at hL
    injection hL with hL
    exact Or.inr hL.symm
  | f :: rest =>
    intro L hL
    rw [updateLastReview] at hL
    split at hL
    · match rest with
      | [] =>
        simp only [List.getLast?_cons, List.getLast?_nil] at hL
        injection hL with hL
        exact Or.inr hL.symm
      | r :: rest' =>
        rw [List.getLast?_cons_cons] at hL
        exact Or.inl (by rw [List.getLast?_cons_cons]; exact hL)
    · rw [getLast?_cons_of_ne_nil _ _ (by simp)] at hL
      exact Or.inl hL

/-! ## Claims -/

/-- C1: the filter decides in a fixed order: similarity at or above the
threshold gives `skip_similar` (regardless of actionability), otherwise a
non-actionable title gives `skip_not_actionable`, otherwise `insert`. -/
theorem C1_filter_decision_order (threshold : ℚ) (it : Suggestion) :
    (threshold ≤ (evalSuggestion threshold it).similarity →
      (evalSuggestion threshold it).decision = Decision.skip_similar) ∧
    ((evalSuggestion threshold it).similarity < threshold →
      (evalSuggestion threshold it).actionable = false →
      (evalSuggestion threshold it).decision = Decision.skip_not_actionable) ∧
    ((evalSuggestion threshold it).similarity < threshold →
      (evalSuggestion threshold it).actionable = true →
      (evalSuggestion threshold it).decision = Decision.insert) := by
  simp only [evalSuggestion]
  refine ⟨fun h => ?_, fun h hact => ?_, fun h hact => ?_⟩
  · rw [if_pos h]
  · rw [if_neg (not_le.mpr h), if_pos hact]
  · rw [if_neg (not_le.mpr h), if_neg (by simp [hact])]

/-- C1 witness: the spec's own example `original="Buy milk"`,
`suggested_text="- [ ] Buy milk"`: the similarity is `1 ≥ 0.85`, the title
is not actionable, and the decision is `skip_similar` (the similarity test
short-circuits the actionability test). -/
theorem C1_filter_decision_order_witness :
    (mkRat 85 100 ≤
      (evalSuggestion (mkRat 85 100)
        ⟨some "Buy milk".data, "- [ ] Buy milk".data⟩).similarity) ∧
    (evalSuggestion (mkRat 85 100)
        ⟨some "Buy milk".data, "- [ ] Buy milk".data⟩).actionable = false ∧
    (evalSuggestion (mkRat 85 100)
        ⟨some "Buy milk".data, "- [ ] Buy milk".data⟩).decision = Decision.skip_similar :=
  ⟨by decide, by decide,
    (C1_filter_decision_order (mkRat 85 100)
      ⟨some "Buy milk".data, "- [ ] Buy milk".data⟩).1 (by decide)⟩

/-- C2: the matcher scans every line of the pre-insertion document: the
reported score dominates every line's score; a reported index is in range,
achieves the score, and every strictly earlier line scores strictly less
(only a strictly greater score replaces the best, so the first occurrence
wins ties); and with no reported index, or a best score below the fixed
floor `0.2`, the suggestion produces nothing beyond its already-appended
decision record (no insertion, no offset change, no error flag). -/
theorem C2_best_match_scan (lines : List (List Char)) (orig : Option (List Char)) :
    (∀ j, j < lines.length →
      lineScore orig (lines.getD j []) ≤ (bestMatch lines orig).2) ∧
    (∀ i, (bestMatch lines orig).1 = some i →
      i < lines.length ∧
      lineScore orig (lines.getD i []) = (bestMatch lines orig).2 ∧
      ∀ j, j < i → lineScore orig (lines.getD j []) < (bestMatch lines orig).2) ∧
    (∀ threshold mk st it, it.original = orig →
      ((bestMatch lines orig).1 = none ∨ (bestMatch lines orig).2 < mkRat 1 5) →
      processSuggestion threshold lines mk st it =
        { st with records := st.records ++ [evalSuggestion threshold it] }) := by
  have heq : bestMatch lines orig = scanBest orig 0 lines (none, 0) :=
    bestMatchAux_enumFrom orig lines 0 (none, 0)
  obtain ⟨-, h2, h3⟩ := scanBest_spec orig lines 0 (none, (0 : ℚ))
  refine ⟨?_, ?_, ?_⟩
  · intro j hj; rw [heq]; exact h2 j hj
  · intro i hi
    rw [heq] at hi ⊢
    rcases h3 with hacc | ⟨j, hj, hj1, hj2, hj3, hj4⟩
    · rw [hacc] at hi; cases hi
    · rw [hj1] at hi
      injection hi with hi
      subst hi
      simp only [Nat.zero_add]
      exact ⟨hj, hj2.symm, hj4⟩
  · intro threshold mk st it hit hdrop
    unfold processSuggestion
    dsimp only
    split
    · rfl
    · rw [hit]
      rcases hbm : bestMatch lines orig with ⟨bi, bs⟩
      rcases bi with _ | i
      · rfl
      · rcases hdrop with hnone | hlow
        · rw [hbm] at hnone; cases hnone
        · rw [hbm] at hlow
          simp only at hlow
          dsimp only
          rw [if_pos hlow]

/-- C2 witness: on an empty document no line matches (`best_idx` stays
`None`) and an insert-decision suggestion is dropped with only its record
appended. -/
theorem C2_best_match_scan_witness :
    processSuggestion (mkRat 85 100) [] "MK".data (initState [])
        ⟨some "ab".data, "- [ ] Create x".data⟩ =
      { initState [] with
        records := (initState []).records ++
          [evalSuggestion (mkRat 85 100) ⟨some "ab".data, "- [ ] Create x".data⟩] } :=
  (C2_best_match_scan [] (some "ab".data)).2.2 (mkRat 85 100) "MK".data (initState [])
    ⟨some "ab".data, "- [ ] Create x".data⟩ rfl (Or.inl (by decide))

/-- C3: an accepted insertion places its two lines starting at
`best_index + 1 + offset` in the growing array — the human note lands at
that index and the machine marker right after it — and the cumulative
offset grows by exactly 2. -/
theorem C3_insert_position (threshold : ℚ) (lines : List (List Char)) (mk : List Char)
    (st : LoopState) (it : Suggestion) (i : ℕ) (s : ℚ)
    (hdec : (evalSuggestion threshold it).decision = Decision.insert)
    (hbm : bestMatch lines it.original = (some i, s))
    (hs : ¬ s < mkRat 1 5)
    (hw : ¬ (pyStrip (humanNote (evalSuggestion threshold it).title) <:+:
              joinNL (windowOf st.new_lines (i + 1 + st.offset))) ∧
          ¬ (mk <:+: joinNL (windowOf st.new_lines (i + 1 + st.offset)))) :
    (processSuggestion threshold lines mk st it).new_lines =
      ((st.new_lines.insertIdx (i + 1 + st.offset)
          (humanNote (evalSuggestion threshold it).title)).insertIdx
          (i + 1 + st.offset + 1) mk) ∧
    (processSuggestion threshold lines mk st it).offset = st.offset + 2 ∧
    (i + 1 + st.offset ≤ st.new_lines.length →
      (processSuggestion threshold lines mk st it).new_lines.get? (i + 1 + st.offset) =
        some (humanNote (evalSuggestion threshold it).title) ∧
      (processSuggestion threshold lines mk st it).new_lines.get? (i + 1 + st.offset + 1) =
        some mk) := by
  rw [processSuggestion_insert_case threshold lines mk st it i s hdec hbm hs hw]
  refine ⟨rfl, rfl, fun hlen => ⟨?_, ?_⟩⟩
  · rw [get?_insertIdx_of_lt _ _ _ _ (Nat.lt_succ_self _)]
    exact get?_insertIdx_self _ _ _ hlen
  · refine get?_insertIdx_self _ _ _ ?_
    rw [List.length_insertIdx _ _ hlen]
    omega

/-- C3 witness: the spec's scenario of accepted matches at original
document indices 2 and then 5.  With the first insertion already applied
(offset 2, two extra lines after index 2), the second accepted suggestion
matches original index 5 and its note/marker pair lands at array indices
`5 + 1 + 2 = 8` and `9` — not at `6`. -/
theorem C3_insert_position_witness :
    (processSuggestion (mkRat 85 100)
        ["a0".data, "b1".data, "c2".data, "d3".data, "e4".data, "c5x".data]
        "MKB".data
        ⟨["a0".data, "b1".data, "c2".data, "HN1".data, "MK1".data,
          "d3".data, "e4".data, "c5x".data], 2, 1, []⟩
        ⟨some "c5x".data, "- [ ] Create z".data⟩).new_lines.get? 8 =
      some (humanNote (evalSuggestion (mkRat 85 100)
        ⟨some "c5x".data, "- [ ] Create z".data⟩).title) ∧
    (processSuggestion (mkRat 85 100)
        ["a0".data, "b1".data, "c2".data, "d3".data, "e4".data, "c5x".data]
        "MKB".data
        ⟨["a0".data, "b1".data, "c2".data, "HN1".data, "MK1".data,
          "d3".data, "e4".data, "c5x".data], 2, 1, []⟩
        ⟨some "c5x".data, "- [ ] Create z".data⟩).new_lines.get? 9 =
      some "MKB".data :=
  (C3_insert_position (mkRat 85 100)
    ["a0".data, "b1".data, "c2".data, "d3".data, "e4".data, "c5x".data]
    "MKB".data
    ⟨["a0".data, "b1".data, "c2".data, "HN1".data, "MK1".data,
      "d3".data, "e4".data, "c5x".data], 2, 1, []⟩
    ⟨some "c5x".data, "- [ ] Create z".data⟩ 5 1
    (by decide) (by decide) (by decide) ⟨by decide, by decide⟩).2.2 (by decide)

/-- C4: before inserting, the window of the already-modified array from 2
lines before to 3 lines after the insertion point is searched for the
suggestion's human note text (stripped) or its machine marker text; if
either occurs there, nothing is inserted and the offset is unchanged, even
though the suggestion's decision record still says `insert`. -/
theorem C4_window_guard (threshold : ℚ) (lines : List (List Char)) (mk : List Char)
    (st : LoopState) (it : Suggestion) (i : ℕ) (s : ℚ)
    (hdec : (evalSuggestion threshold it).decision = Decision.insert)
    (hbm : bestMatch lines it.original = (some i, s))
    (hs : ¬ s < mkRat 1 5)
    (hw : (pyStrip (humanNote (evalSuggestion threshold it).title) <:+:
            joinNL (windowOf st.new_lines (i + 1 + st.offset))) ∨
          (mk <:+: joinNL (windowOf st.new_lines (i + 1 + st.offset)))) :
    processSuggestion threshold lines mk st it =
      { st with records := st.records ++ [evalSuggestion threshold it] } := by
  unfold processSuggestion
  dsimp only
  rw [if_neg (by simp [hdec]), hbm]
  dsimp only
  rw [if_neg hs, if_pos (by rcases hw with h | h <;> simp [h])]

/-- C4 witness: a document that already contains the machine marker line
within the scan window.  The suggestion's decision is `insert`, the match
succeeds, but the window check finds the marker and no insertion happens:
the state only gains the decision record. -/
theorem C4_window_guard_witness :
    (evalSuggestion (mkRat 85 100)
      ⟨some "ab".data, "- [ ] Create x".data⟩).decision = Decision.insert ∧
    processSuggestion (mkRat 85 100) ["ab".data, "MK".data] "MK".data
        (initState ["ab".data, "MK".data]) ⟨some "ab".data, "- [ ] Create x".data⟩ =
      { initState ["ab".data, "MK".data] with
        records := (initState ["ab".data, "MK".data]).records ++
          [evalSuggestion (mkRat 85 100) ⟨some "ab".data, "- [ ] Create x".data⟩] } :=
  ⟨by decide,
    C4_window_guard (mkRat 85 100) ["ab".data, "MK".data] "MK".data
      (initState ["ab".data, "MK".data]) ⟨some "ab".data, "- [ ] Create x".data⟩ 0 1
      (by decide) (by decide) (by decide) (Or.inr (by decide))⟩

/-- C9: the pipeline only inserts lines.  When the document's first line
does not start with the last-review tag (or the document is empty), every
downloaded line survives unchanged and in order (as a sublist) into the
final output; when the first line does start with the tag, that single
line is replaced by the new header and all remaining lines survive
unchanged and in order. -/
theorem C9_original_lines_survive (threshold : ℚ) (content : List Char)
    (items : List Suggestion) (markers : ℕ → List Char) (ll : List Char) :
    (∀ f rest, pySplitlines content = f :: rest → lastReviewTag.isPrefixOf f = true →
      rest <+ finalLines threshold content items markers ll ∧
      (finalLines threshold content items markers ll).head? = some ll) ∧
    ((∀ f, (pySplitlines content).head? = some f → lastReviewTag.isPrefixOf f = false) →
      pySplitlines content <+ finalLines threshold content items markers ll) := by
  obtain ⟨hhead, htail⟩ := runSuggestionsAux_head_tail threshold (pySplitlines content)
    markers items 0 (initState (pySplitlines content))
  set st := runSuggestions threshold (pySplitlines content) items markers with hst
  have hh : st.new_lines.head? = (pySplitlines content).head? := hhead
  have ht : (pySplitlines content).tail <+ st.new_lines.tail := htail
  constructor
  · intro f rest hsplit hpre
    rw [hsplit] at hh ht
    match hnl : st.new_lines with
    | [] => rw [hnl] at hh; cases hh
    | f' :: t =>
      rw [hnl] at hh ht
      simp only [List.head?_cons, Option.some.injEq] at hh
      have hfin : finalLines threshold content items markers ll = ll :: t := by
        rw [finalLines, ← hst, hnl, updateLastReview, if_pos (by rw [hh]; exact hpre)]
      rw [hfin]
      exact ⟨(by simpa using ht : rest <+ t).cons ll, rfl⟩
  · intro hnp
    match hsplit : pySplitlines content with
    | [] =>
      match hnl : st.new_lines with
      | [] =>
        have hfin : finalLines threshold content items markers ll = [ll] := by
          rw [finalLines, ← hst, hnl, updateLastReview]
        rw [hfin]
        exact List.nil_sublist _
      | f' :: t =>
        rw [hsplit, hnl] at hh; cases hh
    | f :: rest =>
      have hpre : lastReviewTag.isPrefixOf f = false := hnp f (by rw [hsplit]; rfl)
      rw [hsplit] at hh ht
      match hnl : st.new_lines with
      | [] => rw [hnl] at hh; cases hh
      | f' :: t =>
        rw [hnl] at hh ht
        simp only [List.head?_cons, Option.some.injEq] at hh
        have hfin : finalLines threshold content items markers ll = ll :: f' :: t := by
          rw [finalLines, ← hst, hnl, updateLastReview, if_neg (by simp [hh, hpre])]
        rw [hfin, hh]
        exact ((List.Sublist.cons₂ f (by simpa using ht)).cons ll)

/-- C9 witness: a two-line document with no header and no suggestions: the
original lines survive into the final output. -/
theorem C9_original_lines_survive_witness :
    pySplitlines "ab
cd".data <+
      finalLines (mkRat 85 100) "ab
cd".data [] (fun _ => "MK".data) "HDR".data :=
  (C9_original_lines_survive (mkRat 85 100) "ab
cd".data [] (fun _ => "MK".data)
    "HDR".data).2
    (fun f hf => by
      have hs : pySplitlines "ab\ncd".data = ["ab".data, "cd".data] := by decide
      rw [hs] at hf
      simp only [List.head?_cons, Option.some.injEq] at hf
      subst hf
      decide)

/-- C10 counterexample: a document consisting of a single carriage return.
`splitlines` yields one empty line, the serialized output `"HDR\n"` ends
with a newline, but the downloaded content did not end with `'\n'` — the
presence of a trailing newline is not preserved, refuting the claim as
stated. -/
theorem C10_trailing_newline_counterexample :
    (newContent (mkRat 85 100) ['\r'] [] (fun _ => "MK".data) "HDR".data).getLast? =
      some '\n' ∧
    (['\r'] : List Char).getLast? ≠ some '\n' := by
  constructor
  · decide
  · decide

/-- C10 amended: the serialized output is the final line array joined with
`'\n'`, plus one trailing `'\n'` exactly when the downloaded content ended
with `'\n'` (that much is unconditional); and the presence or absence of a
trailing newline is preserved provided the content contains no carriage
return (so `'\n'` is its only line terminator) — the header and marker
lines being nonempty and newline-free, as the script's own are. -/
theorem C10_trailing_newline_amended (threshold : ℚ) (content : List Char)
    (items : List Suggestion) (markers : ℕ → List Char) (ll : List Char)
    (hll : ll ≠ [] ∧ '\n' ∉ ll)
    (hmk : ∀ k, markers k ≠ [] ∧ '\n' ∉ markers k)
    (hcr : '\r' ∉ content) :
    newContent threshold content items markers ll =
      joinNL (finalLines threshold content items markers ll) ++
        (if content.getLast? = some '\n' then ['\n'] else []) ∧
    ((newContent threshold content items markers ll).getLast? = some '\n' ↔
      content.getLast? = some '\n') := by
  refine ⟨rfl, ?_, ?_⟩
  · intro hnc
    by_contra hcon
    rw [newContent, if_neg hcon, List.append_nil] at hnc
    have hinv : GoodLast (pySplitlines content)
        (runSuggestions threshold (pySplitlines content) items markers) := by
      apply runSuggestionsAux_goodLast threshold (pySplitlines content) markers items hmk
      refine ⟨by simp [initState], ?_⟩
      intro L hL
      have hcne : content ≠ [] := by
        intro h0
        subst h0
        cases hL
      constructor
      · exact splitlinesGo_getLast_ne_nil content [] hcr hcon
          (fun h => absurd h hcne) L hL
      · exact splitlinesGo_no_newline content [] hcr (by simp) L
          (List.mem_of_mem_getLast? (Option.mem_def.mpr hL))
    have hgood : ∀ L, (finalLines threshold content items markers ll).getLast? = some L →
        L ≠ [] ∧ '\n' ∉ L := by
      intro L hL
      rcases updateLastReview_getLast ll _ L hL with h | h
      · exact hinv.2 L h
      · rw [h]; exact hll
    obtain ⟨-, hlast⟩ := joinNL_getLast (finalLines threshold content items markers ll)
      (updateLastReview_ne_nil ll _) hgood
    exact hlast hnc
  · intro hc
    rw [newContent, if_pos hc]
    exact List.getLast?_concat _

/-- C10 amended witness: a newline-free document is serialized without a
trailing newline. -/
theorem C10_trailing_newline_amended_witness :
    ((newContent (mkRat 85 100) "ab".data [] (fun _ => "MK".data) "HDR".data).getLast? =
      some '\n' ↔ ("ab".data : List Char).getLast? = some '\n') :=
  (C10_trailing_newline_amended (mkRat 85 100) "ab".data [] (fun _ => "MK".data)
    "HDR".data ⟨by decide, by decide⟩
    (fun _ => ⟨show ("MK".data : List Char) ≠ [] by decide,
      show '\n' ∉ ("MK".data : List Char) by decide⟩) (by decide)).2

/-- C6: `is_actionable` holds exactly when some verb of the fixed
twelve-verb list occurs in the normalized title as a separate
space-delimited word (which covers the title starting with a verb); a verb
embedded mid-word, such as `create` inside `recreate`, never counts. -/
theorem C6_actionable_iff_verb_word (title : List Char) :
    is_actionable title = true ↔
      ∃ v, v ∈ ACTION_VERBS ∧ IsWordOf v (normalize (some title)) := by
  simp only [is_actionable, List.any_eq_true]
  constructor
  · rintro ⟨v, hv, hcond⟩
    refine ⟨v, hv, (pad_infix_iff_word v (normalize (some title))).mp ?_⟩
    rcases (by simpa using hcond :
        (v ++ [' ']) <+: normalize (some title) ∨
        ((' ' :: (v ++ [' '])) <:+: (' ' :: (normalize (some title) ++ [' '])))) with hpre | hinf
    · obtain ⟨r, hr⟩ := hpre
      exact ⟨[], r ++ [' '], by rw [← hr]; simp⟩
    · exact hinf
  · rintro ⟨v, hv, hw⟩
    have hpad : ((' ' :: (v ++ [' '])) <:+: (' ' :: (normalize (some title) ++ [' ']))) :=
      (pad_infix_iff_word v (normalize (some title))).mpr hw
    exact ⟨v, hv, by simp [hpad]⟩

/-- C5: the header update places the last-review line at index 0: a first
line already starting with the tag is replaced in place (length preserved),
otherwise the line is inserted at the top; it runs after the whole
suggestion loop, as a pure function of the line list alone (so it neither
reads nor changes the loop's offset counter). -/
theorem C5_last_review_header (ll : List Char) (nl : List (List Char)) :
    (updateLastReview ll nl).head? = some ll ∧
    (∀ f rest, nl = f :: rest → lastReviewTag.isPrefixOf f = true →
      updateLastReview ll nl = ll :: rest ∧
      (updateLastReview ll nl).length = nl.length) ∧
    (∀ f rest, nl = f :: rest → lastReviewTag.isPrefixOf f = false →
      updateLastReview ll nl = ll :: f :: rest ∧
      (updateLastReview ll nl).length = nl.length + 1) ∧
    (nl = [] → updateLastReview ll nl = [ll]) ∧
    (∀ threshold content items markers,
      finalLines threshold content items markers ll =
        updateLastReview ll
          (runSuggestions threshold (pySplitlines content) items markers).new_lines) := by
  match nl with
  | [] =>
    refine ⟨rfl, ?_, ?_, fun _ => rfl, fun _ _ _ _ => rfl⟩ <;>
      exact fun f rest h => by cases h
  | f :: rest =>
    by_cases h : lastReviewTag.isPrefixOf f = true
    · refine ⟨?_, ?_, ?_, ?_, fun _ _ _ _ => rfl⟩
      · simp [updateLastReview, h]
      · intro f' rest' he _; cases he; simp [updateLastReview, h]
      · intro f' rest' he hf; cases he; rw [h] at hf; cases hf
      · intro he; cases he
    · replace h : lastReviewTag.isPrefixOf f = false := by
        cases hb : lastReviewTag.isPrefixOf f
        · rfl
        · exact absurd hb h
      refine ⟨?_, ?_, ?_, ?_, fun _ _ _ _ => rfl⟩
      · simp [updateLastReview, h]
      · intro f' rest' he hf; cases he; rw [h] at hf; cases hf
      · intro f' rest' he _; cases he; simp [updateLastReview, h]
      · intro he; cases he

/-- C5 witness: a first line that already starts with
`<!-- bot: last_review` is replaced in place. -/
theorem C5_last_review_header_witness :
    updateLastReview "NEW".data ["<!-- bot: last_review old".data, "x".data] =
      ["NEW".data, "x".data] :=
  ((C5_last_review_header "NEW".data _).2.1 _ _ rfl (by decide)).1

/-- C6 witness: the spec's positive example contains the verb `create` as
a word of its normalization. -/
theorem C6_actionable_iff_verb_word_witness :
    ∃ v, v ∈ ACTION_VERBS ∧ IsWordOf v (normalize (some "Create a new draft doc".data)) :=
  (C6_actionable_iff_verb_word "Create a new draft doc".data).mp (by decide)

/-- C7: `normalize` is a total function of an optional string: `None` and
the empty string give the empty string; it lowercases, replaces every
character outside `[a-z0-9 ]` by a space, collapses whitespace runs and
trims (witnessed on the spec's example); and it is idempotent. -/
theorem C7_normalize_total_idempotent :
    normalize none = [] ∧ normalize (some []) = [] ∧
    normalize (some "Hello, World!!  123".data) = "hello world 123".data ∧
    ∀ s : Option (List Char), normalize (some (normalize s)) = normalize s := by
  refine ⟨by decide, by decide, by decide, fun s => ?_⟩
  have hchars := normalize_chars s
  have hml : (normalize s).map Char.toLower = normalize s :=
    ((List.map_congr_left fun c hc => toLower_fixed (hchars c hc)).trans
      (List.map_id _))
  have hmc : (normalize s).map classify = normalize s :=
    ((List.map_congr_left fun c hc => classify_fixed (hchars c hc)).trans
      (List.map_id _))
  show pyStrip (collapse (((normalize s).map Char.toLower).map classify)) = normalize s
  rw [hml, hmc]
  rw [collapse_fixed _ (normalize_noTwoSpaces s)
    (fun c hc hsp => predC_space (hchars c hc) hsp)]
  exact normalize_pyStrip s

/-- C7 witness: idempotence at a concrete string. -/
theorem C7_normalize_total_idempotent_witness :
    normalize (some (normalize (some "A  b!".data))) = normalize (some "A  b!".data) :=
  C7_normalize_total_idempotent.2.2.2 (some "A  b!".data)

/-- C8: every suggestion, whatever its decision and whether or not any
line matched, contributes exactly one decision record, in order: the
records list is the pointwise evaluation of the suggestion list, so it has
the same length. -/
theorem C8_every_suggestion_recorded (threshold : ℚ) (lines : List (List Char))
    (items : List Suggestion) (markers : ℕ → List Char) :
    (runSuggestions threshold lines items markers).records =
      items.map (evalSuggestion threshold) ∧
    (runSuggestions threshold lines items markers).records.length = items.length := by
  have h := runSuggestionsAux_records threshold lines markers items 0 (initState lines)
  refine ⟨?_, ?_⟩
  · simpa [runSuggestions, initState] using h
  · rw [runSuggestions] at *
    rw [h]
    simp [initState]

end TodoApply
